import Mathlib

/-!
Shallow embedding of the board/session state machine of the dot game
(`src/main.rs`).  The GUI layer (orbtk widgets, event wiring, rendering) is
out of scope; only the core `BoardState` logic is modelled.

Randomness: `BoardColor::random()` draws `gen_range(0..4)` from a thread-local
RNG and maps the result to one of the four playable colors.  We model the RNG
as an infinite stream `rng : Nat → Fin 4` together with a cursor (the index of
the next unconsumed draw), threaded through every operation that draws.

The 10×10 grid `dots : [BoardColor; 100]` is modelled as a total function
`Nat → BoardColor`; only the indices `0..99` (`index x y = y*10+x` with
`x, y < 10`) are ever read or written by in-range operations.
-/

/-- Mirror of the Rust `enum BoardColor`. -/
inductive BoardColor where
  | Red
  | Blue
  | Green
  | Yellow
  | Empty
  deriving DecidableEq, Repr

/-- Mirror of `BoardColor::random()`: the draw `gen_range(0..4)` is a `Fin 4`
and the `match` maps `0,1,2,3` to the four playable colors.  The panic arm for
other values is unrepresentable. -/
def colorOf : Fin 4 → BoardColor
  | 0 => BoardColor.Red
  | 1 => BoardColor.Blue
  | 2 => BoardColor.Green
  | 3 => BoardColor.Yellow

/-- Mirror of `const BOARD_SIZE: usize = 10`. -/
def BOARD_SIZE : Nat := 10

/-- Mirror of `const MOVE_LIMIT: usize = 30`. -/
def MOVE_LIMIT : Nat := 30

/-- The linear dot array, as a total function on linear indices. -/
abbrev Grid := Nat → BoardColor

/-- A single array write `dots[i] = c`. -/
def upd (g : Grid) (i : Nat) (c : BoardColor) : Grid :=
  fun j => if j = i then c else g j

/-- Mirror of `self.dots.swap(i, j)`. -/
def swapIdx (g : Grid) (i j : Nat) : Grid :=
  fun t => if t = i then g j else if t = j then g i else g t

/-- Mirror of `BoardState::index`: `y * BOARD_SIZE + x`. -/
def index (x y : Nat) : Nat := y * BOARD_SIZE + x

/-- Mirror of `BoardState::can_connect` (reads `self.dots` and `self.trail`).
The i32 differences and `abs` are modelled over `Int`. -/
def can_connect (dots : Grid) (trail : List (Nat × Nat)) (x y : Nat) : Bool :=
  match trail.getLast? with
  | some (ox, oy) =>
    if ((x : Int) - (ox : Int)).natAbs + ((y : Int) - (oy : Int)).natAbs = 1 then
      if 2 ≤ trail.length ∧ trail[trail.length - 2]? = some (x, y) then false
      else decide (dots (index ox oy) = dots (index x y))
    else false
  | none => true

/-- Mirror of `BoardState::has_loop`: for each position `b` of the trail,
test whether the element recurs in the suffix `trail[b+1..]`. -/
def has_loop : List (Nat × Nat) → Bool
  | [] => false
  | p :: rest => decide (p ∈ rest) || has_loop rest

/-- The top-down scan of `fill_column` (the first `for y in (0..BOARD_SIZE).rev()`
loop), over an explicit list of row indices.  `none` models `return false`
(an `Empty` cell strictly below a non-`Empty` cell); `some fe` is the value of
`first_empty` when the scan finishes. -/
def scanStep (dots : Grid) (x : Nat) : List Nat → Nat → Bool → Option Nat
  | [], fe, _ => some fe
  | y :: ys, fe, seen =>
    if dots (index x y) = BoardColor.Empty ∧ ¬ seen then scanStep dots x ys y seen
    else if seen ∧ dots (index x y) = BoardColor.Empty then none
    else scanStep dots x ys fe true

/-- The `roll_again` computation of one reroll iteration in `fill_column`:
the left triple is checked only when `x > 1`, the right one only when
`x < BOARD_SIZE - 1`. -/
def rollCheck (dots : Grid) (x y : Nat) : Bool :=
  let i3 := index x (y - 1)
  let left : Bool :=
    if 1 < x then
      decide (dots (index (x-1) y) = dots (index x y) ∧
              dots (index (x-1) y) = dots (index (x-1) (y-1)) ∧
              dots (index (x-1) y) = dots i3)
    else false
  let right : Bool :=
    if x < BOARD_SIZE - 1 then
      decide (dots i3 = dots (index x y) ∧
              dots i3 = dots (index (x+1) (y-1)) ∧
              dots i3 = dots (index (x+1) y))
    else false
  left || right

/-- The `for roll in 0..total_rolls` loop of `fill_column`: re-check the
neighbor triples against the current grid and redraw the cell when degenerate. -/
def rerolls (rng : Nat → Fin 4) (x y : Nat) : Nat → Grid × Nat → Grid × Nat
  | 0, st => st
  | n+1, (dots, k) =>
    if rollCheck dots x y then rerolls rng x y n (upd dots (index x y) (colorOf (rng k)), k+1)
    else rerolls rng x y n (dots, k)

/-- The `for y in first_empty..BOARD_SIZE` fill loop of `fill_column`:
draw a fresh color for each row, then (except at row 0) run the three
anti-trivial-match reroll iterations. -/
def fillCells (rng : Nat → Fin 4) (x : Nat) : List Nat → Grid × Nat → Grid × Nat
  | [], st => st
  | y :: ys, (dots, k) =>
    let dots₁ := upd dots (index x y) (colorOf (rng k))
    if y = 0 then fillCells rng x ys (dots₁, k+1)
    else fillCells rng x ys (rerolls rng x y 3 (dots₁, k+1))

/-- Mirror of `BoardState::fill_column`.  Returns the `bool` result together
with the updated grid and RNG cursor. -/
def fill_column (rng : Nat → Fin 4) (x : Nat) (st : Grid × Nat) : Bool × Grid × Nat :=
  match scanStep st.1 x ((List.range BOARD_SIZE).reverse) (BOARD_SIZE - 1) false with
  | none => (false, st)
  | some fe => (true, fillCells rng x (List.range' fe (BOARD_SIZE - fe)) st)

/-- One bubble-up compaction pass of `drop_remaining`
(the `for y in 0..BOARD_SIZE-1` loop), threading the `found_empty` flag. -/
def compactPassGo (x : Nat) : List Nat → Grid × Bool → Grid × Bool
  | [], st => st
  | y :: ys, (dots, f) =>
    if dots (index x y) = BoardColor.Empty then
      compactPassGo x ys (swapIdx dots (index x y) (index x (y+1)), true)
    else compactPassGo x ys (dots, f)

/-- One full compaction pass over column `x`, starting with `found_empty = false`. -/
def compact_pass (x : Nat) (dots : Grid) : Grid × Bool :=
  compactPassGo x (List.range (BOARD_SIZE - 1)) (dots, false)

/-- The `while found_empty` loop of `drop_remaining` for one column, with
explicit fuel.  `none` models fuel exhaustion (proved unreachable for fuel
`BOARD_SIZE + 1`): each iteration runs one compaction pass and then attempts
`fill_column`; a successful fill breaks out, a failed fill repeats while the
pass saw an `Empty` cell. -/
def dropColumnFuel (rng : Nat → Fin 4) (x : Nat) : Nat → Grid × Nat → Option (Grid × Nat)
  | 0, _ => none
  | n+1, (dots, k) =>
    let pr := compact_pass x dots
    match fill_column rng x (pr.1, k) with
    | (true, st') => some st'
    | (false, _) => if pr.2 then dropColumnFuel rng x n (pr.1, k) else some (pr.1, k)

/-- The per-column loop of `drop_remaining`, run with sufficient fuel. -/
def dropColumn (rng : Nat → Fin 4) (x : Nat) (st : Grid × Nat) : Grid × Nat :=
  (dropColumnFuel rng x (BOARD_SIZE + 1) st).getD st

/-- The full game session state (`struct BoardState`), restricted to the
engine fields.  `rand` is the cursor into the random stream (the next
unconsumed draw). -/
structure BoardState where
  dots : Grid
  trail : List (Nat × Nat)
  score : Nat
  moves_left : Nat
  rand : Nat

/-- Mirror of `BoardState::drop_remaining`: process every column in order. -/
def drop_remaining (rng : Nat → Fin 4) (st : BoardState) : BoardState :=
  let dk := (List.range BOARD_SIZE).foldl (fun dk x => dropColumn rng x dk) (st.dots, st.rand)
  { st with dots := dk.1, rand := dk.2 }

/-- One step of the loop-closure branch of `finish_trail`: if the visited
cell currently holds `trail_color`, count it and set it to `Empty`. -/
def clearColorStep (tc : BoardColor) (acc : Nat × Grid) (i : Nat) : Nat × Grid :=
  if acc.2 i = tc then (acc.1 + 1, upd acc.2 i BoardColor.Empty) else acc

/-- The loop-closure branch of `finish_trail`: clear every cell whose color
equals `trail_color`, counting each cleared cell. -/
def clearColor (dots : Grid) (tc : BoardColor) : Nat × Grid :=
  (List.range (BOARD_SIZE * BOARD_SIZE)).foldl (clearColorStep tc) (0, dots)

/-- One step of the plain branch of `finish_trail`: set one trail coordinate
to `Empty` and count it. -/
def clearTrailStep (acc : Nat × Grid) (p : Nat × Nat) : Nat × Grid :=
  (acc.1 + 1, upd acc.2 (index p.1 p.2) BoardColor.Empty)

/-- The plain branch of `finish_trail`: set each trail coordinate to `Empty`,
counting once per trail entry. -/
def clearTrail (dots : Grid) (trail : List (Nat × Nat)) : Nat × Grid :=
  trail.foldl clearTrailStep (0, dots)

/-- The color read at `self.trail[0]` by `finish_trail` (line 227); the trail
is nonempty whenever this is used. -/
def trail_color (st : BoardState) : BoardColor :=
  st.dots (index (st.trail.headD (0, 0)).1 (st.trail.headD (0, 0)).2)

/-- Mirror of `BoardState::finish_trail`.  Returns the cleared-cell count
together with the updated state. -/
def finish_trail (rng : Nat → Fin 4) (st : BoardState) : Nat × BoardState :=
  if st.trail.length < 2 then (0, st)
  else
    let cg := if has_loop st.trail then clearColor st.dots (trail_color st)
              else clearTrail st.dots st.trail
    (cg.1, drop_remaining rng { st with dots := cg.2, trail := [] })

/-- Mirror of `BoardState::handle_click`. -/
def handle_click (rng : Nat → Fin 4) (st : BoardState) (x y : Nat) : BoardState :=
  if st.moves_left = 0 then st
  else
    match st.trail.getLast? with
    | some pos =>
      if 2 ≤ st.trail.length ∧ pos = (x, y) then
        let c := finish_trail rng st
        { c.2 with score := c.2.score + c.1, trail := [], moves_left := c.2.moves_left - 1 }
      else if can_connect st.dots st.trail x y then { st with trail := st.trail ++ [(x, y)] }
      else { st with trail := [] }
    | none => { st with trail := st.trail ++ [(x, y)] }

/-- The random refill of every cell shared by `BoardState::new` and
`BoardState::reset`: write a fresh draw into each linear index in order. -/
def refillAll (rng : Nat → Fin 4) (g : Grid) (k : Nat) : Grid × Nat :=
  (List.range (BOARD_SIZE * BOARD_SIZE)).foldl
    (fun acc i => (upd acc.1 i (colorOf (rng acc.2)), acc.2 + 1)) (g, k)

/-- Mirror of `BoardState::new` (engine fields): the array starts all `Green`
and every cell is then overwritten with a fresh draw.  `k` is the initial RNG
cursor. -/
def BoardState.new (rng : Nat → Fin 4) (k : Nat) : BoardState :=
  let gk := refillAll rng (fun _ => BoardColor.Green) k
  { dots := gk.1, trail := [], score := 0, moves_left := MOVE_LIMIT, rand := gk.2 }

/-- Mirror of `BoardState::reset`. -/
def reset (rng : Nat → Fin 4) (st : BoardState) : BoardState :=
  let gk := refillAll rng st.dots st.rand
  { st with dots := gk.1, rand := gk.2, score := 0, trail := [], moves_left := MOVE_LIMIT }

/-- The session states reachable through the public operations
(construction, clicks and resets), for a fixed random stream. -/
inductive Reachable (rng : Nat → Fin 4) : BoardState → Prop
  | new (k : Nat) : Reachable rng (BoardState.new rng k)
  | click (st : BoardState) (x y : Nat) :
      Reachable rng st → Reachable rng (handle_click rng st x y)
  | reset (st : BoardState) :
      Reachable rng st → Reachable rng (reset rng st)

/-!
Proof layer: a Bool abstraction of one column.  A column's compaction and the
`fill_column` scan depend only on which of its ten cells are `Empty`, so the
`while found_empty` loop can be analysed over the `2^10` Boolean patterns.
-/

/-- The `Empty`-pattern of column `x` from row `y0` upward (row `y0` first). -/
def patFrom (dots : Grid) (x : Nat) (y0 : Nat) : List Bool :=
  if h : y0 < BOARD_SIZE then
    decide (dots (index x y0) = BoardColor.Empty) :: patFrom dots x (y0 + 1)
  else []
termination_by BOARD_SIZE - y0

/-- The `Empty`-pattern of a whole column, bottom row first. -/
def patCol (dots : Grid) (x : Nat) : List Bool := patFrom dots x 0

/-- Helper for the pattern-level compaction pass: the first argument is the
cell currently under the scan cursor (`true` is an `Empty` cell, which swaps
with the cell above it); the second component collects the `found_empty` flag. -/
def passGo : Bool → List Bool → List Bool × Bool
  | c, [] => ([c], false)
  | true, c₂ :: rest =>
    let r := passGo true rest
    (c₂ :: r.1, true)
  | false, c₂ :: rest =>
    let r := passGo c₂ rest
    (false :: r.1, r.2)

/-- Pattern-level image of one compaction pass over a whole column. -/
def passBF : List Bool → List Bool × Bool
  | [] => ([], false)
  | c :: rest => passGo c rest

/-- Pattern-level image of the `fill_column` scan (processed top row first):
`true` is an `Empty` cell; the result is whether the scan completes without
hitting an `Empty` cell below a non-`Empty` one. -/
def scanOkB : List Bool → Bool → Bool
  | [], _ => true
  | c :: rest, seen =>
    if c ∧ ¬ seen then scanOkB rest seen
    else if seen ∧ c then false
    else scanOkB rest true

/-- Pattern-level image of the `while found_empty` loop: returns `true` iff,
within the given fuel, some iteration's compaction pass yields a pattern
accepted by the scan, with every earlier iteration's pass having seen an
`Empty` cell (so the loop indeed continued). -/
def colLoopOkB : Nat → List Bool → Bool
  | 0, _ => false
  | n+1, p =>
    let pr := passBF p
    if scanOkB pr.1.reverse false then true
    else if pr.2 then colLoopOkB n pr.1 else false

/-- Decode the low `k` bits of `n` into a Bool list, least significant first. -/
def decodeBits : Nat → Nat → List Bool
  | 0, _ => []
  | k+1, n => decide (n % 2 = 1) :: decodeBits k (n / 2)

/-- Encode a Bool list as a natural number, head as least significant bit. -/
def encodeBits : List Bool → Nat
  | [] => 0
  | b :: r => (cond b 1 0) + 2 * encodeBits r

/-!
Concrete instances used by counterexamples and witnesses.
-/

/-- An all-red grid. -/
def allRed : Grid := fun _ => BoardColor.Red

/-- A random stream that always draws `Blue`. -/
def rngBlue : Nat → Fin 4 := fun _ => 1

/-- A random stream that always draws `Red`. -/
def rngZero : Nat → Fin 4 := fun _ => 0

/-- A random stream drawing `Red` first, then `Blue` forever. -/
def rng01 : Nat → Fin 4 := fun k => if k = 0 then 0 else 1

/-- Column 5 has rows `0..8` red and row `9` empty; every other column is green. -/
def gridA : Grid := fun j =>
  if j = 95 then BoardColor.Empty
  else if j % 10 = 5 then BoardColor.Red
  else BoardColor.Green

/-- Same column 5 as `gridA`, but the neighbor cells `(4,9)` and `(4,8)` are red. -/
def gridB : Grid := fun j =>
  if j = 95 then BoardColor.Empty
  else if j % 10 = 5 then BoardColor.Red
  else if j = 94 ∨ j = 84 then BoardColor.Red
  else BoardColor.Green

/-- An all-red session state with an empty trail. -/
def stIdle : BoardState :=
  { dots := allRed, trail := [], score := 0, moves_left := MOVE_LIMIT, rand := 0 }

/-- A reachable state whose trail has length exactly 1: one click on a fresh board. -/
def stLen1 : BoardState := handle_click rngZero (BoardState.new rngZero 0) 0 0

/-- An all-red state with a looping trail through four cells and back. -/
def stLoop : BoardState :=
  { dots := allRed, trail := [(0, 0), (0, 1), (1, 1), (1, 0), (0, 0)],
    score := 0, moves_left := MOVE_LIMIT, rand := 0 }

/-- An all-red state with a two-cell trail `[(0,1),(0,0)]`. -/
def stPair : BoardState :=
  { dots := allRed, trail := [(0, 1), (0, 0)], score := 0, moves_left := MOVE_LIMIT, rand := 0 }

/-!
Basic helper lemmas.
-/

/-- Array writes read back at the written index. -/
theorem upd_self (g : Grid) (i : Nat) (c : BoardColor) : upd g i c i = c := by
  simp [upd]

/-- Array writes leave other indices unchanged. -/
theorem upd_other (g : Grid) (i : Nat) (c : BoardColor) {j : Nat} (h : j ≠ i) :
    upd g i c j = g j := by
  simp [upd, h]

/-- Within one column, `index` is injective in the row. -/
theorem index_inj_row (x y₁ y₂ : Nat) : index x y₁ = index x y₂ ↔ y₁ = y₂ := by
  unfold index BOARD_SIZE
  omega

/-- For in-range columns, `index` is injective in both coordinates. -/
theorem index_inj {x₁ x₂ : Nat} (h₁ : x₁ < BOARD_SIZE) (h₂ : x₂ < BOARD_SIZE)
    (y₁ y₂ : Nat) : index x₁ y₁ = index x₂ y₂ ↔ x₁ = x₂ ∧ y₁ = y₂ := by
  unfold index BOARD_SIZE at *
  omega

/-- The four playable colors are never `Empty`. -/
theorem colorOf_ne_empty (i : Fin 4) : colorOf i ≠ BoardColor.Empty := by
  fin_cases i <;> simp [colorOf]

/-- C3: `finish_trail` on a trail of length 0 or 1 returns 0 and mutates
nothing: the returned state is exactly the input state. -/
theorem C3_finish_trail_short_noop (rng : Nat → Fin 4) (st : BoardState)
    (h : st.trail.length < 2) : finish_trail rng st = (0, st) := by
  simp [finish_trail, h]

/-- Witness for C3 at a concrete state with an empty trail. -/
theorem C3_witness : stIdle.trail.length < 2 ∧ finish_trail rngZero stIdle = (0, stIdle) :=
  ⟨by decide, C3_finish_trail_short_noop rngZero stIdle (by decide)⟩

/-- C1: on a grid whose column 0 contains no `Empty` cell at all, `fill_column 0`
still reports success and overwrites the top cell `(0,9)` with a fresh draw
(here `Blue` replacing `Red`), because `first_empty` is initialized to
`BOARD_SIZE - 1` and the fill loop `first_empty..BOARD_SIZE` is then nonempty. -/
theorem C1_fill_column_full_overwrite :
    (∀ y, y < BOARD_SIZE → allRed (index 0 y) ≠ BoardColor.Empty) ∧
    (fill_column rngBlue 0 (allRed, 0)).1 = true ∧
    allRed (index 0 9) = BoardColor.Red ∧
    (fill_column rngBlue 0 (allRed, 0)).2.1 (index 0 9) = BoardColor.Blue := by
  exact ⟨by decide, by decide, by decide, by decide⟩

/-- Counterexample to C4: `gridA` and `gridB` agree on every cell of column 5,
and the random stream is the same, yet `fill_column 5` writes different colors
to the cell `(5,9)` — the reroll heuristic reads the neighboring column 4. -/
theorem C4_counterexample :
    (∀ y, y < BOARD_SIZE → gridA (index 5 y) = gridB (index 5 y)) ∧
    (fill_column rng01 5 (gridA, 0)).2.1 (index 5 9) ≠
      (fill_column rng01 5 (gridB, 0)).2.1 (index 5 9) := by
  exact ⟨by decide, by decide⟩

/-- Counterexample to C2: the state reached by a single click on a fresh board
has a trail of length 1, and `finish_trail` on it leaves the trail nonempty. -/
theorem C2_counterexample :
    Reachable rngZero stLen1 ∧ (finish_trail rngZero stLen1).2.trail ≠ [] :=
  ⟨Reachable.click _ 0 0 (Reachable.new 0), by decide⟩

/-- C9: `has_loop` is true iff some coordinate occurs at two distinct
positions of the trail. -/
theorem C9_has_loop_iff_repeat (trail : List (Nat × Nat)) :
    has_loop trail = true ↔
      ∃ i j, i < j ∧ j < trail.length ∧ trail[i]? = trail[j]? := by
  induction trail with
  | nil => simp [has_loop]
  | cons p rest ih =>
    simp only [has_loop, Bool.or_eq_true, decide_eq_true_eq, ih]
    constructor
    · rintro (hmem | ⟨i, j, hij, hj, he⟩)
      · obtain ⟨m, hm⟩ := List.mem_iff_getElem?.mp hmem
        obtain ⟨hmlt, -⟩ := List.getElem?_eq_some.mp hm
        exact ⟨0, m + 1, Nat.succ_pos m, by simpa using hmlt,
          by simp [List.getElem?_cons_zero, List.getElem?_cons_succ, hm]⟩
      · exact ⟨i + 1, j + 1, by omega, by simpa using hj,
          by simpa [List.getElem?_cons_succ] using he⟩
    · rintro ⟨i, j, hij, hj, he⟩
      match i, j with
      | 0, 0 => omega
      | 0, j' + 1 =>
        left
        rw [List.getElem?_cons_zero, List.getElem?_cons_succ] at he
        exact List.mem_iff_getElem?.mpr ⟨j', he.symm⟩
      | i' + 1, 0 => omega
      | i' + 1, j' + 1 =>
        right
        rw [List.getElem?_cons_succ, List.getElem?_cons_succ] at he
        exact ⟨i', j', by omega, by simpa using hj, he⟩

/-- C8: `can_connect` accepts exactly the spec's condition: an empty trail
accepts anything; otherwise the click must be at Manhattan distance 1 from the
trail's last element, must not equal the second-to-last element when the trail
has two or more elements, and must carry the same color as the last element. -/
theorem C8_can_connect_spec (dots : Grid) (trail : List (Nat × Nat)) (x y : Nat)
    (_hx : x < BOARD_SIZE) (_hy : y < BOARD_SIZE) :
    can_connect dots trail x y = true ↔
      (trail = [] ∨
        ∃ ox oy, trail.getLast? = some (ox, oy) ∧
          ((x : Int) - ox).natAbs + ((y : Int) - oy).natAbs = 1 ∧
          ¬ (2 ≤ trail.length ∧ trail[trail.length - 2]? = some (x, y)) ∧
          dots (index ox oy) = dots (index x y)) := by
  cases htl : trail.getLast? with
  | none =>
    have h0 : trail = [] := List.getLast?_eq_none_iff.mp htl
    subst h0
    simp [can_connect]
  | some p =>
    obtain ⟨ox, oy⟩ := p
    have hne : trail ≠ [] := by
      intro h0
      subst h0
      simp at htl
    rw [can_connect]
    simp only [htl, hne, false_or]
    by_cases hd : ((x : Int) - ox).natAbs + ((y : Int) - oy).natAbs = 1
    · by_cases hb : 2 ≤ trail.length ∧ trail[trail.length - 2]? = some (x, y)
      · simp [hd, hb]
      · simp [hd, hb]
        constructor
        · intro h
          exact ⟨ox, oy, ⟨rfl, rfl⟩, hd, h⟩
        · rintro ⟨a, b, ⟨rfl, rfl⟩, -, h⟩
          exact h
    · simp [hd]

/-- Witness for C8 at a concrete in-range input: on an all-red board with an
empty trail, any first click is connectable. -/
theorem C8_witness :
    (0 : Nat) < BOARD_SIZE ∧
      (can_connect allRed [] 0 0 = true ↔
        (([] : List (Nat × Nat)) = [] ∨
          ∃ ox oy, ([] : List (Nat × Nat)).getLast? = some (ox, oy) ∧
            ((0 : Int) - ox).natAbs + ((0 : Int) - oy).natAbs = 1 ∧
            ¬ (2 ≤ ([] : List (Nat × Nat)).length ∧
                ([] : List (Nat × Nat))[([] : List (Nat × Nat)).length - 2]? = some (0, 0)) ∧
            allRed (index ox oy) = allRed (index 0 0))) :=
  ⟨by decide, C8_can_connect_spec allRed [] 0 0 (by decide) (by decide)⟩

/-- Characterization of the `clearColor` fold over a duplicate-free index
list whose entries are still unvisited. -/
theorem clearColor_go (tc : BoardColor) :
    ∀ (L : List Nat) (c0 : Nat) (g0 dots : Grid), L.Nodup → (∀ i ∈ L, g0 i = dots i) →
      (L.foldl (clearColorStep tc) (c0, g0)).1 = c0 + L.countP (fun i => decide (dots i = tc)) ∧
      ∀ j, (L.foldl (clearColorStep tc) (c0, g0)).2 j =
        if j ∈ L ∧ dots j = tc then BoardColor.Empty else g0 j := by
  intro L
  induction L with
  | nil => intro c0 g0 dots _ _; simp
  | cons i L ih =>
    intro c0 g0 dots hnd hg
    have hni : i ∉ L := (List.nodup_cons.mp hnd).1
    have hgi : g0 i = dots i := hg i (List.mem_cons_self i L)
    by_cases h : dots i = tc
    · have step : List.foldl (clearColorStep tc) (c0, g0) (i :: L)
          = List.foldl (clearColorStep tc) (c0 + 1, upd g0 i BoardColor.Empty) L := by
        simp [List.foldl_cons, clearColorStep, hgi, h]
      obtain ⟨ihc, ihg⟩ := ih (c0 + 1) (upd g0 i BoardColor.Empty) dots
        (List.nodup_cons.mp hnd).2
        (fun i' hi' => by
          rw [upd_other]
          · exact hg i' (List.mem_cons_of_mem i hi')
          · intro he; exact hni (he ▸ hi'))
      refine ⟨?_, ?_⟩
      · rw [step, ihc, List.countP_cons_of_pos]
        · omega
        · simpa using h
      · intro j
        rw [step, ihg j]
        by_cases hjc : dots j = tc
        · by_cases hji : j = i
          · subst hji
            rw [if_neg (fun hc => hni hc.1), if_pos ⟨List.mem_cons_self j L, hjc⟩, upd_self]
          · by_cases hjL : j ∈ L
            · rw [if_pos ⟨hjL, hjc⟩, if_pos ⟨List.mem_cons_of_mem i hjL, hjc⟩]
            · rw [if_neg (fun hc => hjL hc.1), upd_other g0 i BoardColor.Empty hji,
                if_neg (fun hc => (List.mem_cons.mp hc.1).elim hji hjL)]
        · have hji : j ≠ i := fun he => hjc (he ▸ h)
          rw [if_neg (fun hc => hjc hc.2), upd_other g0 i BoardColor.Empty hji,
            if_neg (fun hc => hjc hc.2)]
    · have step : List.foldl (clearColorStep tc) (c0, g0) (i :: L)
          = List.foldl (clearColorStep tc) (c0, g0) L := by
        simp [List.foldl_cons, clearColorStep, hgi, h]
      obtain ⟨ihc, ihg⟩ := ih c0 g0 dots (List.nodup_cons.mp hnd).2
        (fun i' hi' => hg i' (List.mem_cons_of_mem i hi'))
      refine ⟨?_, ?_⟩
      · rw [step, ihc, List.countP_cons_of_neg]
        simpa using h
      · intro j
        rw [step, ihg j]
        by_cases hjc : dots j = tc
        · have hji : j ≠ i := fun he => h (he ▸ hjc)
          by_cases hjL : j ∈ L
          · rw [if_pos ⟨hjL, hjc⟩, if_pos ⟨List.mem_cons_of_mem i hjL, hjc⟩]
          · rw [if_neg (fun hc => hjL hc.1),
              if_neg (fun hc => (List.mem_cons.mp hc.1).elim hji hjL)]
        · rw [if_neg (fun hc => hjc hc.2), if_neg (fun hc => hjc hc.2)]

/-- Characterization of the `clearTrail` fold: one count per entry, and
exactly the listed coordinates are set to `Empty`. -/
theorem clearTrail_go :
    ∀ (L : List (Nat × Nat)) (c0 : Nat) (g0 : Grid),
      (L.foldl clearTrailStep (c0, g0)).1 = c0 + L.length ∧
      ∀ j, (L.foldl clearTrailStep (c0, g0)).2 j =
        if j ∈ L.map (fun p => index p.1 p.2) then BoardColor.Empty else g0 j := by
  intro L
  induction L with
  | nil => intro c0 g0; simp
  | cons p L ih =>
    intro c0 g0
    have step : List.foldl clearTrailStep (c0, g0) (p :: L)
        = List.foldl clearTrailStep (c0 + 1, upd g0 (index p.1 p.2) BoardColor.Empty) L := by
      simp [List.foldl_cons, clearTrailStep]
    obtain ⟨ihc, ihg⟩ := ih (c0 + 1) (upd g0 (index p.1 p.2) BoardColor.Empty)
    refine ⟨?_, ?_⟩
    · rw [step, ihc]
      simp
      omega
    · intro j
      rw [step, ihg j, List.map_cons]
      by_cases hjL : j ∈ L.map (fun p => index p.1 p.2)
      · rw [if_pos hjL, if_pos (List.mem_cons_of_mem _ hjL)]
      · by_cases hji : j = index p.1 p.2
        · subst hji
          rw [if_neg hjL, upd_self, if_pos (List.mem_cons_self _ _)]
        · rw [if_neg hjL, upd_other g0 _ BoardColor.Empty hji, if_neg ?_]
          intro hc
          rcases List.mem_cons.mp hc with h1 | h1
          · exact hji h1
          · exact hjL h1

/-- The compactor/refiller never touches the score. -/
theorem drop_remaining_score (rng : Nat → Fin 4) (st : BoardState) :
    (drop_remaining rng st).score = st.score := by
  simp [drop_remaining]

theorem drop_remaining_moves (rng : Nat → Fin 4) (st : BoardState) :
    (drop_remaining rng st).moves_left = st.moves_left := by
  simp [drop_remaining]

theorem finish_trail_score (rng : Nat → Fin 4) (st : BoardState) :
    (finish_trail rng st).2.score = st.score := by
  rw [finish_trail]
  split
  · rfl
  · simp [drop_remaining]

theorem finish_trail_moves (rng : Nat → Fin 4) (st : BoardState) :
    (finish_trail rng st).2.moves_left = st.moves_left := by
  rw [finish_trail]
  split
  · rfl
  · simp [drop_remaining]

theorem handle_click_complete (rng : Nat → Fin 4) (st : BoardState) (x y : Nat)
    (hm : st.moves_left ≠ 0) (hl : st.trail.getLast? = some (x, y))
    (h2 : 2 ≤ st.trail.length) :
    handle_click rng st x y =
      { (finish_trail rng st).2 with
        score := (finish_trail rng st).2.score + (finish_trail rng st).1,
        trail := [],
        moves_left := (finish_trail rng st).2.moves_left - 1 } := by
  rw [handle_click, if_neg hm]
  simp only [hl]
  rw [if_pos ⟨h2, trivial⟩]

/-- C5: on a trail of length at least 2 that has a loop, `finish_trail`
returns exactly the number of grid cells whose color equals the color at the
trail's first coordinate, and the clearing stage (the grid handed to the
compactor/refiller) sets exactly those cells to `Empty` and no other cell. -/
theorem C5_loop_clears_color (rng : Nat → Fin 4) (st : BoardState)
    (h2 : 2 ≤ st.trail.length) (hl : has_loop st.trail = true) :
    (finish_trail rng st).1 =
      (List.range (BOARD_SIZE * BOARD_SIZE)).countP
        (fun i => decide (st.dots i = trail_color st)) ∧
    ∀ j, (clearColor st.dots (trail_color st)).2 j =
      if j < BOARD_SIZE * BOARD_SIZE ∧ st.dots j = trail_color st then BoardColor.Empty
      else st.dots j := by
  obtain ⟨hc, hgr⟩ := clearColor_go (trail_color st) (List.range (BOARD_SIZE * BOARD_SIZE))
    0 st.dots st.dots (List.nodup_range _) (fun _ _ => rfl)
  constructor
  · simp only [finish_trail, if_neg (by omega : ¬ st.trail.length < 2), hl, if_true]
    simpa [clearColor] using hc
  · intro j
    have h := hgr j
    simp only [clearColor]
    rw [h]
    simp [List.mem_range]

/-- C6: on a trail of length at least 2 without a loop, `finish_trail`
returns the trail's length and the clearing stage sets to `Empty` exactly the
cells at the coordinates listed in the trail; in particular a two-cell trail
`[p, q]` with `p ≠ q`, completed by clicking `q`, increments the score by 2. -/
theorem C6_trail_clear_exact (rng : Nat → Fin 4) (st : BoardState) :
    (2 ≤ st.trail.length → has_loop st.trail = false →
      (finish_trail rng st).1 = st.trail.length ∧
      ∀ j, (clearTrail st.dots st.trail).2 j =
        if j ∈ st.trail.map (fun p => index p.1 p.2) then BoardColor.Empty else st.dots j) ∧
    (∀ p q : Nat × Nat, st.trail = [p, q] → p ≠ q → st.moves_left ≠ 0 →
      (handle_click rng st q.1 q.2).score = st.score + 2) := by
  constructor
  · intro h2 hnl
    constructor
    · simp only [finish_trail, if_neg (by omega : ¬ st.trail.length < 2), hnl]
      simpa [clearTrail] using (clearTrail_go st.trail 0 st.dots).1
    · intro j
      have h := (clearTrail_go st.trail 0 st.dots).2 j
      simp only [clearTrail]
      rw [h]
  · intro p q hpq hne hm
    have h2 : 2 ≤ st.trail.length := by rw [hpq]; simp
    have hlast : st.trail.getLast? = some (q.1, q.2) := by rw [hpq]; rfl
    have hnl : has_loop st.trail = false := by
      rw [hpq]
      simp [has_loop, hne]
    have hcount : (finish_trail rng st).1 = st.trail.length := by
      simp only [finish_trail, if_neg (by omega : ¬ st.trail.length < 2), hnl]
      simpa [clearTrail] using (clearTrail_go st.trail 0 st.dots).1
    rw [handle_click_complete rng st q.1 q.2 hm hlast h2]
    simp only [finish_trail_score, hcount, hpq]
    rfl

/-- C7: a click that completes a trail (clicked coordinate equals the trail's
last coordinate and the trail has length at least 2) decrements `moves_left`
by exactly 1 and adds the resolver's count to the score; any other click
leaves `moves_left` and the score unchanged; and once `moves_left` is 0 every
click leaves the entire session state unchanged. -/
theorem C7_click_move_accounting (rng : Nat → Fin 4) (st : BoardState) (x y : Nat) :
    (st.moves_left = 0 → handle_click rng st x y = st) ∧
    (st.moves_left ≠ 0 → st.trail.getLast? = some (x, y) → 2 ≤ st.trail.length →
      (handle_click rng st x y).moves_left = st.moves_left - 1 ∧
      (handle_click rng st x y).score = st.score + (finish_trail rng st).1) ∧
    (st.moves_left ≠ 0 → ¬ (st.trail.getLast? = some (x, y) ∧ 2 ≤ st.trail.length) →
      (handle_click rng st x y).moves_left = st.moves_left ∧
      (handle_click rng st x y).score = st.score) := by
  refine ⟨?_, ?_, ?_⟩
  · intro h
    rw [handle_click, if_pos h]
  · intro hm hl h2
    rw [handle_click_complete rng st x y hm hl h2]
    exact ⟨by simp [finish_trail_moves], by simp [finish_trail_score]⟩
  · intro hm hnc
    rw [handle_click, if_neg hm]
    cases hgl : st.trail.getLast? with
    | none =>
      simp only [hgl]
      exact ⟨by trivial, by trivial⟩
    | some pos =>
      simp only [hgl]
      have hcond : ¬ (2 ≤ st.trail.length ∧ pos = (x, y)) := by
        rintro ⟨ha, hb⟩
        exact hnc ⟨hb ▸ hgl, ha⟩
      rw [if_neg hcond]
      split
      · exact ⟨by trivial, by trivial⟩
      · exact ⟨by trivial, by trivial⟩

/-- Witness for C5: a looping trail on an all-red board clears by color. -/
theorem C5_witness :
    2 ≤ stLoop.trail.length ∧ has_loop stLoop.trail = true ∧
      ((finish_trail rngBlue stLoop).1 =
        (List.range (BOARD_SIZE * BOARD_SIZE)).countP
          (fun i => decide (stLoop.dots i = trail_color stLoop)) ∧
      ∀ j, (clearColor stLoop.dots (trail_color stLoop)).2 j =
        if j < BOARD_SIZE * BOARD_SIZE ∧ stLoop.dots j = trail_color stLoop then BoardColor.Empty
        else stLoop.dots j) :=
  ⟨by decide, by decide, C5_loop_clears_color rngBlue stLoop (by decide) (by decide)⟩

/-- Witness for C6: the two-cell trail `[(0,1),(0,0)]` on an all-red board
clears exactly its own two cells and the completing click scores 2. -/
theorem C6_witness :
    (2 ≤ stPair.trail.length ∧ has_loop stPair.trail = false) ∧
    (stPair.trail = [(0, 1), (0, 0)] ∧ ((0, 1) : Nat × Nat) ≠ (0, 0) ∧ stPair.moves_left ≠ 0) ∧
    ((finish_trail rngBlue stPair).1 = stPair.trail.length ∧
      ∀ j, (clearTrail stPair.dots stPair.trail).2 j =
        if j ∈ stPair.trail.map (fun p => index p.1 p.2) then BoardColor.Empty
        else stPair.dots j) ∧
    (handle_click rngBlue stPair 0 0).score = stPair.score + 2 :=
  ⟨⟨by decide, by decide⟩, ⟨rfl, by decide, by decide⟩,
   (C6_trail_clear_exact rngBlue stPair).1 (by decide) (by decide),
   (C6_trail_clear_exact rngBlue stPair).2 (0, 1) (0, 0) rfl (by decide) (by decide)⟩

/-- Witness for C7 at a concrete completing click. -/
theorem C7_witness :
    stPair.moves_left ≠ 0 ∧ stPair.trail.getLast? = some (0, 0) ∧ 2 ≤ stPair.trail.length ∧
      ((handle_click rngBlue stPair 0 0).moves_left = stPair.moves_left - 1 ∧
       (handle_click rngBlue stPair 0 0).score = stPair.score + (finish_trail rngBlue stPair).1) :=
  ⟨by decide, by decide, by decide,
   (C7_click_move_accounting rngBlue stPair 0 0).2.1 (by decide) (by decide) (by decide)⟩

theorem patFrom_eq_map (dots : Grid) (x : Nat) :
    ∀ (k y0 : Nat), BOARD_SIZE - y0 = k →
      patFrom dots x y0 =
        (List.range' y0 k).map (fun y => decide (dots (index x y) = BoardColor.Empty)) := by
  intro k
  induction k with
  | zero =>
    intro y0 hk
    rw [patFrom, dif_neg (by omega)]
    simp
  | succ k ih =>
    intro y0 hk
    rw [patFrom, dif_pos (by omega)]
    have : List.range' y0 (k + 1) = y0 :: List.range' (y0 + 1) k := by
      simp [List.range']
    rw [this, List.map_cons, ih (y0 + 1) (by omega)]

theorem patCol_length (dots : Grid) (x : Nat) : (patCol dots x).length = BOARD_SIZE := by
  rw [patCol, patFrom_eq_map dots x BOARD_SIZE 0 (by omega)]
  simp

theorem scan_isSome (dots : Grid) (x : Nat) :
    ∀ (ys : List Nat) (fe : Nat) (seen : Bool),
      (scanStep dots x ys fe seen).isSome =
        scanOkB (ys.map (fun y => decide (dots (index x y) = BoardColor.Empty))) seen := by
  intro ys
  induction ys with
  | nil => intro fe seen; simp [scanStep, scanOkB]
  | cons y ys ih =>
    intro fe seen
    by_cases hP : dots (index x y) = BoardColor.Empty <;> cases seen <;>
      simp [scanStep, scanOkB, hP, ih]

theorem encodeBits_lt : ∀ l : List Bool, encodeBits l < 2 ^ l.length := by
  intro l
  induction l with
  | nil => simp [encodeBits]
  | cons b r ih =>
    cases b <;> simp [encodeBits, List.length_cons, pow_succ] <;> omega

theorem decode_encode : ∀ l : List Bool, decodeBits l.length (encodeBits l) = l := by
  intro l
  induction l with
  | nil => rfl
  | cons b r ih =>
    cases b
    · have h1 : (0 + 2 * encodeBits r) % 2 = 0 := by omega
      have h2 : (0 + 2 * encodeBits r) / 2 = encodeBits r := by omega
      simp only [encodeBits, cond_false, List.length_cons, decodeBits, h1, h2, ih]
      simp
    · have h1 : (1 + 2 * encodeBits r) % 2 = 1 := by omega
      have h2 : (1 + 2 * encodeBits r) / 2 = encodeBits r := by omega
      simp only [encodeBits, cond_true, List.length_cons, decodeBits, h1, h2, ih]
      simp

set_option maxHeartbeats 4000000 in
set_option maxRecDepth 100000 in
theorem pat_loop_ok : ∀ n, n < 1024 → colLoopOkB 11 (decodeBits 10 n) = true := by decide

theorem colLoopOkB_patCol (dots : Grid) (x : Nat) : colLoopOkB 11 (patCol dots x) = true := by
  have hlen : (patCol dots x).length = 10 := patCol_length dots x
  have henc := encodeBits_lt (patCol dots x)
  rw [hlen] at henc
  have hdec := decode_encode (patCol dots x)
  rw [hlen] at hdec
  rw [← hdec]
  exact pat_loop_ok (encodeBits (patCol dots x)) (by simpa using henc)

theorem patFrom_congr (g g' : Grid) (x y0 : Nat)
    (h : ∀ y, y0 ≤ y → y < BOARD_SIZE → g (index x y) = g' (index x y)) :
    patFrom g x y0 = patFrom g' x y0 := by
  rw [patFrom_eq_map g x (BOARD_SIZE - y0) y0 rfl,
    patFrom_eq_map g' x (BOARD_SIZE - y0) y0 rfl]
  refine List.map_congr_left ?_
  intro y hy
  obtain ⟨h1, h2⟩ := List.mem_range'_1.mp hy
  rw [h y h1 (by omega)]

theorem compactGo_spec (x : Nat) :
    ∀ (n y0 : Nat) (dots : Grid) (f0 : Bool), y0 + n = BOARD_SIZE - 1 →
      patFrom (compactPassGo x (List.range' y0 n) (dots, f0)).1 x y0
          = (passBF (patFrom dots x y0)).1 ∧
      (compactPassGo x (List.range' y0 n) (dots, f0)).2
          = (f0 || (passBF (patFrom dots x y0)).2) ∧
      ∀ j, (∀ y, y0 ≤ y → y < BOARD_SIZE → j ≠ index x y) →
        (compactPassGo x (List.range' y0 n) (dots, f0)).1 j = dots j := by
  have hB : BOARD_SIZE = 10 := rfl
  intro n
  induction n with
  | zero =>
    intro y0 dots f0 h9
    have hy0 : y0 < BOARD_SIZE := by omega
    have hy1 : ¬ (y0 + 1 < BOARD_SIZE) := by omega
    have hrange : List.range' y0 0 = [] := rfl
    have hpat : patFrom dots x y0
        = [decide (dots (index x y0) = BoardColor.Empty)] := by
      rw [patFrom, dif_pos hy0, patFrom, dif_neg hy1]
    rw [hrange]
    refine ⟨?_, ?_, ?_⟩
    · rw [hpat]
      simp [compactPassGo, passBF, passGo, hpat]
    · simp [compactPassGo, hpat, passBF, passGo]
    · intro j _
      rfl
  | succ n ih =>
    intro y0 dots f0 h9
    have hy0 : y0 < BOARD_SIZE := by omega
    have hy1 : y0 + 1 < BOARD_SIZE := by omega
    have hrange : List.range' y0 (n + 1) = y0 :: List.range' (y0 + 1) n := by
      simp [List.range']
    rw [hrange]
    have hpat0 : patFrom dots x y0
        = decide (dots (index x y0) = BoardColor.Empty) :: patFrom dots x (y0 + 1) := by
      rw [patFrom, dif_pos hy0]
    have hpat1 : patFrom dots x (y0 + 1)
        = decide (dots (index x (y0 + 1)) = BoardColor.Empty) :: patFrom dots x (y0 + 2) := by
      rw [patFrom, dif_pos hy1]
    have hne01 : index x y0 ≠ index x (y0 + 1) := by
      rw [Ne, index_inj_row]
      omega
    by_cases hc : dots (index x y0) = BoardColor.Empty
    · simp only [compactPassGo, if_pos hc]
      obtain ⟨ih1, ih2, ih3⟩ :=
        ih (y0 + 1) (swapIdx dots (index x y0) (index x (y0 + 1))) true (by omega)
      have hsw0 : swapIdx dots (index x y0) (index x (y0 + 1)) (index x y0)
          = dots (index x (y0 + 1)) := by
        simp [swapIdx]
      have hsw1 : swapIdx dots (index x y0) (index x (y0 + 1)) (index x (y0 + 1))
          = BoardColor.Empty := by
        simp [swapIdx, hne01.symm, hc]
      have hswf : ∀ t, t ≠ index x y0 → t ≠ index x (y0 + 1) →
          swapIdx dots (index x y0) (index x (y0 + 1)) t = dots t := by
        intro t h1 h2
        simp [swapIdx, h1, h2]
      have hpat_sw : patFrom (swapIdx dots (index x y0) (index x (y0 + 1))) x (y0 + 1)
          = true :: patFrom dots x (y0 + 2) := by
        have htail : patFrom (swapIdx dots (index x y0) (index x (y0 + 1))) x (y0 + 2)
            = patFrom dots x (y0 + 2) := by
          refine patFrom_congr _ _ x (y0 + 2) ?_
          intro y hy hylt
          refine hswf _ ?_ ?_
          · rw [Ne, index_inj_row]; omega
          · rw [Ne, index_inj_row]; omega
        rw [patFrom, dif_pos hy1, hsw1, htail]
        simp
      have hres0 : (compactPassGo x (List.range' (y0 + 1) n)
            (swapIdx dots (index x y0) (index x (y0 + 1)), true)).1 (index x y0)
          = dots (index x (y0 + 1)) := by
        rw [ih3 (index x y0) ?_, hsw0]
        intro y hy hylt
        rw [Ne, index_inj_row]
        omega
      refine ⟨?_, ?_, ?_⟩
      · rw [patFrom, dif_pos hy0, hres0, ih1, hpat_sw, hpat0, hpat1]
        simp [hc, passBF, passGo]
      · rw [ih2, hpat0, hpat1]
        simp [hc, passBF, passGo]
      · intro j hj
        rw [ih3 j (fun y hy hylt => hj y (by omega) hylt),
          hswf j (hj y0 (by omega) hy0) (hj (y0 + 1) (by omega) hy1)]
    · simp only [compactPassGo, if_neg hc]
      obtain ⟨ih1, ih2, ih3⟩ := ih (y0 + 1) dots f0 (by omega)
      have hres0 : (compactPassGo x (List.range' (y0 + 1) n) (dots, f0)).1 (index x y0)
          = dots (index x y0) := by
        refine ih3 (index x y0) ?_
        intro y hy hylt
        rw [Ne, index_inj_row]
        omega
      refine ⟨?_, ?_, ?_⟩
      · rw [patFrom, dif_pos hy0, hres0, ih1, hpat0, hpat1]
        simp [hc, passBF, passGo]
      · rw [ih2, hpat0, hpat1]
        simp [hc, passBF, passGo]
      · intro j hj
        exact ih3 j (fun y hy hylt => hj y (by omega) hylt)

theorem scan_lower (dots : Grid) (x : Nat) :
    ∀ (ys : List Nat) (fe : Nat) (seen : Bool) (r : Nat),
      ys.Pairwise (· > ·) → (∀ y ∈ ys, y ≤ fe) →
      scanStep dots x ys fe seen = some r →
      r ≤ fe ∧ ∀ y ∈ ys, dots (index x y) = BoardColor.Empty → r ≤ y := by
  intro ys
  induction ys with
  | nil =>
    intro fe seen r _ _ hs
    rw [scanStep] at hs
    obtain rfl : fe = r := by injection hs
    exact ⟨le_refl _, by simp⟩
  | cons y ys ih =>
    intro fe seen r hpw hle hs
    obtain ⟨hgty, hpw'⟩ := List.pairwise_cons.mp hpw
    rw [scanStep] at hs
    split at hs
    case isTrue hcnd =>
      obtain ⟨ih1, ih2⟩ := ih y seen r hpw' (fun y' h' => le_of_lt (hgty y' h')) hs
      refine ⟨le_trans ih1 (hle y (List.mem_cons_self _ _)), ?_⟩
      intro y' hy' he
      rcases List.mem_cons.mp hy' with rfl | h'
      · exact ih1
      · exact ih2 y' h' he
    case isFalse hcnd =>
      split at hs
      case isTrue hcnd2 => exact absurd hs (by simp)
      case isFalse hcnd2 =>
        obtain ⟨ih1, ih2⟩ := ih fe true r hpw'
          (fun y' h' => hle y' (List.mem_cons_of_mem _ h')) hs
        refine ⟨ih1, ?_⟩
        intro y' hy' he
        rcases List.mem_cons.mp hy' with rfl | h'
        · exact absurd he (by tauto)
        · exact ih2 y' h' he

theorem rerolls_spec (rng : Nat → Fin 4) (x y : Nat) :
    ∀ (n : Nat) (dots : Grid) (k : Nat),
      (∀ j, j ≠ index x y → (rerolls rng x y n (dots, k)).1 j = dots j) ∧
      (dots (index x y) ≠ BoardColor.Empty →
        (rerolls rng x y n (dots, k)).1 (index x y) ≠ BoardColor.Empty) := by
  intro n
  induction n with
  | zero => intro dots k; exact ⟨fun j _ => rfl, fun h => h⟩
  | succ n ih =>
    intro dots k
    simp only [rerolls]
    split
    · obtain ⟨ihf, ihe⟩ := ih (upd dots (index x y) (colorOf (rng k))) (k + 1)
      refine ⟨?_, ?_⟩
      · intro j hj
        rw [ihf j hj, upd_other dots _ _ hj]
      · intro _
        refine ihe ?_
        rw [upd_self]
        exact colorOf_ne_empty _
    · exact ih dots k

theorem fillCells_spec (rng : Nat → Fin 4) (x : Nat) :
    ∀ (ys : List Nat) (dots : Grid) (k : Nat),
      (∀ j, (∀ y ∈ ys, j ≠ index x y) → (fillCells rng x ys (dots, k)).1 j = dots j) ∧
      (∀ y ∈ ys, (fillCells rng x ys (dots, k)).1 (index x y) ≠ BoardColor.Empty) := by
  intro ys
  induction ys with
  | nil => intro dots k; exact ⟨fun j _ => rfl, by simp⟩
  | cons y ys ih =>
    intro dots k
    simp only [fillCells]
    split
    case isTrue hy0 =>
      obtain ⟨ihf, ihe⟩ := ih (upd dots (index x y) (colorOf (rng k))) (k + 1)
      refine ⟨?_, ?_⟩
      · intro j hj
        rw [ihf j (fun y' h' => hj y' (List.mem_cons_of_mem _ h')),
          upd_other dots _ _ (hj y (List.mem_cons_self _ _))]
      · intro y' hy'
        rcases List.mem_cons.mp hy' with rfl | h'
        · by_cases hmem : y' ∈ ys
          · exact ihe y' hmem
          · rw [ihf (index x y') ?_, upd_self]
            · exact colorOf_ne_empty _
            · intro y2 h2
              rw [Ne, index_inj_row]
              rintro rfl
              exact hmem h2
        · exact ihe y' h'
    case isFalse hy0 =>
      obtain ⟨ihf, ihe⟩ :=
        ih (rerolls rng x y 3 (upd dots (index x y) (colorOf (rng k)), k + 1)).1
           (rerolls rng x y 3 (upd dots (index x y) (colorOf (rng k)), k + 1)).2
      obtain ⟨rerf, rere⟩ := rerolls_spec rng x y 3 (upd dots (index x y) (colorOf (rng k))) (k + 1)
      refine ⟨?_, ?_⟩
      · intro j hj
        have hj0 : j ≠ index x y := hj y (List.mem_cons_self _ _)
        refine Eq.trans (ihf j (fun y' h' => hj y' (List.mem_cons_of_mem _ h'))) ?_
        rw [rerf j hj0, upd_other dots _ _ hj0]
      · intro y' hy'
        rcases List.mem_cons.mp hy' with rfl | h'
        · by_cases hmem : y' ∈ ys
          · exact ihe y' hmem
          · have hfr : (fillCells rng x ys
                (rerolls rng x y' 3 (upd dots (index x y') (colorOf (rng k)), k + 1))).1 (index x y')
                = (rerolls rng x y' 3 (upd dots (index x y') (colorOf (rng k)), k + 1)).1 (index x y') := by
              refine ihf (index x y') ?_
              intro y2 h2
              rw [Ne, index_inj_row]
              rintro rfl
              exact hmem h2
            rw [hfr]
            refine rere ?_
            rw [upd_self]
            exact colorOf_ne_empty _
        · exact ihe y' h'

theorem patCol_reverse_map (dots : Grid) (x : Nat) :
    ((List.range BOARD_SIZE).reverse).map
        (fun y => decide (dots (index x y) = BoardColor.Empty))
      = (patCol dots x).reverse := by
  rw [List.map_reverse, patCol, patFrom_eq_map dots x BOARD_SIZE 0 rfl,
    List.range_eq_range']

theorem fill_bool (rng : Nat → Fin 4) (x : Nat) (dots : Grid) (k : Nat) :
    (fill_column rng x (dots, k)).1 = scanOkB ((patCol dots x).reverse) false := by
  have hiso := scan_isSome dots x ((List.range BOARD_SIZE).reverse) (BOARD_SIZE - 1) false
  rw [patCol_reverse_map] at hiso
  rw [fill_column]
  cases hscan : scanStep dots x ((List.range BOARD_SIZE).reverse) (BOARD_SIZE - 1) false with
  | none =>
    rw [hscan] at hiso
    simpa using hiso.symm
  | some fe =>
    rw [hscan] at hiso
    simpa using hiso.symm

theorem fill_true_post (rng : Nat → Fin 4) (x : Nat) (dots : Grid) (k : Nat)
    (h : (fill_column rng x (dots, k)).1 = true) :
    (∀ y, y < BOARD_SIZE → (fill_column rng x (dots, k)).2.1 (index x y) ≠ BoardColor.Empty) ∧
    (∀ j, (∀ y, y < BOARD_SIZE → j ≠ index x y) → (fill_column rng x (dots, k)).2.1 j = dots j) := by
  have hB : BOARD_SIZE = 10 := rfl
  rw [fill_column] at h ⊢
  cases hscan : scanStep dots x ((List.range BOARD_SIZE).reverse) (BOARD_SIZE - 1) false with
  | none => rw [hscan] at h; simp at h
  | some fe =>
    simp only [hscan]
    obtain ⟨hfe9, hlow⟩ := scan_lower dots x ((List.range BOARD_SIZE).reverse)
      (BOARD_SIZE - 1) false fe (by decide) (by decide) hscan
    obtain ⟨hframe, hne⟩ := fillCells_spec rng x (List.range' fe (BOARD_SIZE - fe)) dots k
    constructor
    · intro y hy
      by_cases hyfe : fe ≤ y
      · exact hne y (by rw [List.mem_range'_1]; omega)
      · rw [hframe (index x y) ?_]
        · intro hEmp
          refine hyfe (hlow y ?_ hEmp)
          rw [List.mem_reverse, List.mem_range]
          exact hy
        · intro y' hy'
          rw [List.mem_range'_1] at hy'
          rw [Ne, index_inj_row]
          omega
    · intro j hj
      refine hframe j ?_
      intro y' hy'
      rw [List.mem_range'_1] at hy'
      exact hj y' (by omega)

theorem compact_pass_spec (x : Nat) (dots : Grid) :
    patCol (compact_pass x dots).1 x = (passBF (patCol dots x)).1 ∧
    (compact_pass x dots).2 = (passBF (patCol dots x)).2 ∧
    ∀ j, (∀ y, y < BOARD_SIZE → j ≠ index x y) → (compact_pass x dots).1 j = dots j := by
  have hB : BOARD_SIZE = 10 := rfl
  obtain ⟨h1, h2, h3⟩ := compactGo_spec x (BOARD_SIZE - 1) 0 dots false (by omega)
  have hcp : compact_pass x dots
      = compactPassGo x (List.range' 0 (BOARD_SIZE - 1)) (dots, false) := by
    rw [compact_pass, List.range_eq_range']
  refine ⟨?_, ?_, ?_⟩
  · rw [hcp]
    exact h1
  · rw [hcp, h2, Bool.false_or]
    rfl
  · intro j hj
    rw [hcp]
    exact h3 j (fun y _ h2' => hj y h2')

theorem dropColumnFuel_spec (rng : Nat → Fin 4) (x : Nat) :
    ∀ (n : Nat) (dots : Grid) (k : Nat), colLoopOkB n (patCol dots x) = true →
      ∃ d' k', dropColumnFuel rng x n (dots, k) = some (d', k') ∧
        (∀ y, y < BOARD_SIZE → d' (index x y) ≠ BoardColor.Empty) ∧
        (∀ j, (∀ y, y < BOARD_SIZE → j ≠ index x y) → d' j = dots j) := by
  intro n
  induction n with
  | zero =>
    intro dots k h
    simp [colLoopOkB] at h
  | succ n ih =>
    intro dots k h
    obtain ⟨hpat, hflag, hcf⟩ := compact_pass_spec x dots
    rw [colLoopOkB] at h
    have hfb := fill_bool rng x (compact_pass x dots).1 k
    rw [hpat] at hfb
    by_cases hscan : scanOkB ((passBF (patCol dots x)).1).reverse false = true
    · have hfb' : (fill_column rng x ((compact_pass x dots).1, k)).1 = true := by
        rw [hfb, hscan]
      obtain ⟨hpost1, hpost2⟩ := fill_true_post rng x (compact_pass x dots).1 k hfb'
      rcases hfc : fill_column rng x ((compact_pass x dots).1, k) with ⟨b, g', k'⟩
      rw [hfc] at hfb' hpost1 hpost2
      subst hfb'
      refine ⟨g', k', ?_, hpost1, ?_⟩
      · simp only [dropColumnFuel, hfc]
      · intro j hj
        exact (hpost2 j hj).trans (hcf j hj)
    · have hscan' : scanOkB ((passBF (patCol dots x)).1).reverse false = false :=
        Bool.not_eq_true _ ▸ (by simpa using hscan)
      rw [hscan'] at h
      simp only [Bool.false_eq_true, if_false] at h
      have hfound : (passBF (patCol dots x)).2 = true := by
        by_contra hf
        rw [Bool.not_eq_true] at hf
        rw [hf] at h
        simp at h
      rw [hfound] at h
      simp only [if_true] at h
      have hfb' : (fill_column rng x ((compact_pass x dots).1, k)).1 = false := by
        rw [hfb, hscan']
      obtain ⟨d', k', heq, hp1, hp2⟩ := ih (compact_pass x dots).1 k (by rw [hpat]; exact h)
      refine ⟨d', k', ?_, hp1, ?_⟩
      · rcases hfc : fill_column rng x ((compact_pass x dots).1, k) with ⟨b, g', k2⟩
        rw [hfc] at hfb'
        subst hfb'
        simp only [dropColumnFuel, hfc]
        rw [hflag, hfound, if_pos rfl]
        exact heq
      · intro j hj
        rw [hp2 j hj]
        exact hcf j hj

/-- C10: the `while found_empty` loop of `drop_remaining` always exits: for
every grid, column and RNG cursor, fuel `BOARD_SIZE + 1` is enough for some
iteration's `fill_column` to report success (the fueled loop never runs out). -/
theorem C10_drop_column_terminates (rng : Nat → Fin 4) (x : Nat) (dots : Grid) (k : Nat) :
    (dropColumnFuel rng x (BOARD_SIZE + 1) (dots, k)).isSome = true := by
  obtain ⟨d', k', heq, -, -⟩ :=
    dropColumnFuel_spec rng x (BOARD_SIZE + 1) dots k (colLoopOkB_patCol dots x)
  rw [heq]
  rfl

theorem dropColumn_post (rng : Nat → Fin 4) (x : Nat) (dots : Grid) (k : Nat) :
    (∀ y, y < BOARD_SIZE → (dropColumn rng x (dots, k)).1 (index x y) ≠ BoardColor.Empty) ∧
    (∀ j, (∀ y, y < BOARD_SIZE → j ≠ index x y) → (dropColumn rng x (dots, k)).1 j = dots j) := by
  obtain ⟨d', k', heq, hp1, hp2⟩ :=
    dropColumnFuel_spec rng x (BOARD_SIZE + 1) dots k (colLoopOkB_patCol dots x)
  rw [dropColumn, heq, Option.getD_some]
  exact ⟨hp1, hp2⟩

theorem dropFold_post (rng : Nat → Fin 4) :
    ∀ (L : List Nat) (dk : Grid × Nat), L.Nodup → (∀ x ∈ L, x < BOARD_SIZE) →
      (∀ x ∈ L, ∀ y, y < BOARD_SIZE →
        (L.foldl (fun dk x => dropColumn rng x dk) dk).1 (index x y) ≠ BoardColor.Empty) ∧
      (∀ j, (∀ x ∈ L, ∀ y, y < BOARD_SIZE → j ≠ index x y) →
        (L.foldl (fun dk x => dropColumn rng x dk) dk).1 j = dk.1 j) := by
  intro L
  induction L with
  | nil => intro dk _ _; exact ⟨by simp, fun j _ => rfl⟩
  | cons x L ih =>
    intro dk hnd hlt
    have hx10 : x < BOARD_SIZE := hlt x (List.mem_cons_self _ _)
    have hxL : x ∉ L := (List.nodup_cons.mp hnd).1
    obtain ⟨ihne, ihfr⟩ := ih (dropColumn rng x dk) (List.nodup_cons.mp hnd).2
      (fun x' h' => hlt x' (List.mem_cons_of_mem _ h'))
    obtain ⟨hp1, hp2⟩ := dropColumn_post rng x dk.1 dk.2
    constructor
    · intro x' hx' y hy
      rcases List.mem_cons.mp hx' with rfl | h'
      · rw [List.foldl_cons, ihfr (index x' y) ?_]
        · exact hp1 y hy
        · intro x2 h2 y2 hy2
          rw [Ne, index_inj hx10 (hlt x2 (List.mem_cons_of_mem _ h2)) y y2]
          rintro ⟨rfl, rfl⟩
          exact hxL h2
      · rw [List.foldl_cons]
        exact ihne x' h' y hy
    · intro j hj
      rw [List.foldl_cons,
        ihfr j (fun x2 h2 y2 hy2 => hj x2 (List.mem_cons_of_mem _ h2) y2 hy2),
        hp2 j (fun y2 hy2 => hj x (List.mem_cons_self _ _) y2 hy2)]


theorem drop_remaining_ne_empty (rng : Nat → Fin 4) (st : BoardState) :
    ∀ x, x < BOARD_SIZE → ∀ y, y < BOARD_SIZE →
      (drop_remaining rng st).dots (index x y) ≠ BoardColor.Empty := by
  intro x hx y hy
  obtain ⟨h1, -⟩ := dropFold_post rng (List.range BOARD_SIZE) (st.dots, st.rand)
    (List.nodup_range _) (fun x' h' => List.mem_range.mp h')
  simp only [drop_remaining]
  exact h1 x (List.mem_range.mpr hx) y hy

/-- No in-range cell of the grid is `Empty`. -/
def NoEmpty (st : BoardState) : Prop :=
  ∀ x, x < BOARD_SIZE → ∀ y, y < BOARD_SIZE → st.dots (index x y) ≠ BoardColor.Empty

theorem refillAll_go_ne_empty (rng : Nat → Fin 4) :
    ∀ (L : List Nat) (g : Grid) (k j : Nat), (j ∉ L → g j ≠ BoardColor.Empty) →
      (L.foldl (fun acc i => (upd acc.1 i (colorOf (rng acc.2)), acc.2 + 1)) (g, k)).1 j
        ≠ BoardColor.Empty := by
  intro L
  induction L with
  | nil => intro g k j h; exact h (by simp)
  | cons i L ih =>
    intro g k j h
    rw [List.foldl_cons]
    refine ih (upd g i (colorOf (rng k))) (k + 1) j ?_
    intro hjL
    by_cases hji : j = i
    · subst hji
      rw [upd_self]
      exact colorOf_ne_empty _
    · rw [upd_other g _ _ hji]
      exact h (by simp [hji, hjL])

theorem new_no_empty (rng : Nat → Fin 4) (k : Nat) : NoEmpty (BoardState.new rng k) := by
  intro x hx y hy
  exact refillAll_go_ne_empty rng (List.range (BOARD_SIZE * BOARD_SIZE))
    (fun _ => BoardColor.Green) k (index x y) (fun _ h => BoardColor.noConfusion h)

theorem reset_no_empty (rng : Nat → Fin 4) (st : BoardState) : NoEmpty (reset rng st) := by
  intro x hx y hy
  refine refillAll_go_ne_empty rng (List.range (BOARD_SIZE * BOARD_SIZE))
    st.dots st.rand (index x y) ?_
  intro hmem
  refine absurd (List.mem_range.mpr ?_) hmem
  unfold index BOARD_SIZE at *
  omega

theorem finish_trail_no_empty (rng : Nat → Fin 4) (st : BoardState) (h : NoEmpty st) :
    NoEmpty (finish_trail rng st).2 := by
  rw [finish_trail]
  split
  · exact h
  · intro x hx y hy
    exact drop_remaining_ne_empty rng _ x hx y hy

theorem handle_click_no_empty (rng : Nat → Fin 4) (st : BoardState) (x y : Nat)
    (h : NoEmpty st) : NoEmpty (handle_click rng st x y) := by
  rw [handle_click]
  split
  · exact h
  · cases hgl : st.trail.getLast? with
    | none =>
      simp only [hgl]
      exact h
    | some pos =>
      simp only [hgl]
      split
      · intro x' hx' y' hy'
        exact finish_trail_no_empty rng st h x' hx' y' hy'
      · split
        · exact h
        · exact h

theorem reachable_no_empty (rng : Nat → Fin 4) (st : BoardState) (h : Reachable rng st) :
    NoEmpty st := by
  induction h with
  | new k => exact new_no_empty rng k
  | click st x y _ ih => exact handle_click_no_empty rng st x y ih
  | reset st _ ih => exact reset_no_empty rng st

/-- C2 (amended): on every reachable session state, after any `finish_trail`
call no in-range cell is `Empty` (hence every column trivially satisfies that
no `Empty` cell has a non-`Empty` cell below it); the trail is empty afterwards
whenever its length before the call was not exactly 1. -/
theorem C2_finish_trail_resolves (rng : Nat → Fin 4) (st : BoardState)
    (h : Reachable rng st) :
    (∀ x, x < BOARD_SIZE → ∀ y, y < BOARD_SIZE →
      (finish_trail rng st).2.dots (index x y) ≠ BoardColor.Empty) ∧
    (st.trail.length ≠ 1 → (finish_trail rng st).2.trail = []) ∧
    (∀ x, x < BOARD_SIZE → ∀ y₂, y₂ < BOARD_SIZE →
      (finish_trail rng st).2.dots (index x y₂) = BoardColor.Empty →
      ∀ y₁, y₁ < y₂ → (finish_trail rng st).2.dots (index x y₁) = BoardColor.Empty) := by
  refine ⟨finish_trail_no_empty rng st (reachable_no_empty rng st h), ?_, ?_⟩
  · intro hlen
    rw [finish_trail]
    split
    case isTrue hlt =>
      have h0 : st.trail.length = 0 := by omega
      exact List.length_eq_zero.mp h0
    case isFalse =>
      simp [drop_remaining]
  · intro x hx y₂ hy₂ hEmp y₁ hy₁
    exact absurd hEmp
      (finish_trail_no_empty rng st (reachable_no_empty rng st h) x hx y₂ hy₂)

/-- Witness for C2 (amended) at a freshly constructed board. -/
theorem C2_witness :
    Reachable rngZero (BoardState.new rngZero 0) ∧
    ((∀ x, x < BOARD_SIZE → ∀ y, y < BOARD_SIZE →
      (finish_trail rngZero (BoardState.new rngZero 0)).2.dots (index x y) ≠ BoardColor.Empty) ∧
    ((BoardState.new rngZero 0).trail.length ≠ 1 →
      (finish_trail rngZero (BoardState.new rngZero 0)).2.trail = []) ∧
    (∀ x, x < BOARD_SIZE → ∀ y₂, y₂ < BOARD_SIZE →
      (finish_trail rngZero (BoardState.new rngZero 0)).2.dots (index x y₂) = BoardColor.Empty →
      ∀ y₁, y₁ < y₂ →
        (finish_trail rngZero (BoardState.new rngZero 0)).2.dots (index x y₁)
          = BoardColor.Empty)) :=
  ⟨Reachable.new 0, C2_finish_trail_resolves rngZero (BoardState.new rngZero 0) (Reachable.new 0)⟩

/-- Agreement of two grids on columns `x-1`, `x` and `x+1` (the neighbor
columns only where they exist: `x-1` when `1 < x`, `x+1` when
`x < BOARD_SIZE - 1`, matching the guards of the reroll heuristic). -/
def Agree3 (x : Nat) (d₁ d₂ : Grid) : Prop :=
  (∀ y, y < BOARD_SIZE → d₁ (index x y) = d₂ (index x y)) ∧
  (1 < x → ∀ y, y < BOARD_SIZE → d₁ (index (x-1) y) = d₂ (index (x-1) y)) ∧
  (x < BOARD_SIZE - 1 → ∀ y, y < BOARD_SIZE → d₁ (index (x+1) y) = d₂ (index (x+1) y))

theorem Agree3.updSame {x : Nat} {d₁ d₂ : Grid} (h : Agree3 x d₁ d₂)
    (hx : x < BOARD_SIZE) (y : Nat) (c : BoardColor) :
    Agree3 x (upd d₁ (index x y) c) (upd d₂ (index x y) c) := by
  obtain ⟨hA, hL, hR⟩ := h
  have hB : BOARD_SIZE = 10 := rfl
  refine ⟨?_, ?_, ?_⟩
  · intro y' hy'
    by_cases he : index x y' = index x y
    · rw [upd, upd, if_pos he, if_pos he]
    · rw [upd_other d₁ _ _ he, upd_other d₂ _ _ he]
      exact hA y' hy'
  · intro h1 y' hy'
    have hne : index (x-1) y' ≠ index x y := by
      rw [Ne, index_inj (by omega) hx]
      omega
    rw [upd_other d₁ _ _ hne, upd_other d₂ _ _ hne]
    exact hL h1 y' hy'
  · intro h1 y' hy'
    have hne : index (x+1) y' ≠ index x y := by
      rw [Ne, index_inj (by omega) hx]
      omega
    rw [upd_other d₁ _ _ hne, upd_other d₂ _ _ hne]
    exact hR h1 y' hy'

theorem scanStep_congr (d₁ d₂ : Grid) (x : Nat) :
    ∀ (ys : List Nat) (fe : Nat) (seen : Bool),
      (∀ y ∈ ys, d₁ (index x y) = d₂ (index x y)) →
      scanStep d₁ x ys fe seen = scanStep d₂ x ys fe seen := by
  intro ys
  induction ys with
  | nil => intro fe seen _; rfl
  | cons y ys ih =>
    intro fe seen h
    have h0 := h y (List.mem_cons_self _ _)
    have h' : ∀ y' ∈ ys, d₁ (index x y') = d₂ (index x y') :=
      fun y' hy' => h y' (List.mem_cons_of_mem _ hy')
    simp only [scanStep, h0]
    split
    · exact ih y seen h'
    · split
      · rfl
      · exact ih fe true h'

theorem rollCheck_congr (d₁ d₂ : Grid) (x y : Nat) (hy9 : y < BOARD_SIZE)
    (h : Agree3 x d₁ d₂) : rollCheck d₁ x y = rollCheck d₂ x y := by
  obtain ⟨hA, hL, hR⟩ := h
  have hB : BOARD_SIZE = 10 := rfl
  have e1 := hA y hy9
  have e2 := hA (y-1) (by omega)
  unfold rollCheck
  by_cases h1 : 1 < x <;> by_cases h2 : x < BOARD_SIZE - 1
  · simp only [h1, h2, if_true, e1, e2, hL h1 y hy9, hL h1 (y-1) (by omega),
      hR h2 y hy9, hR h2 (y-1) (by omega)]
  · simp only [h1, h2, if_true, if_false, e1, e2, hL h1 y hy9, hL h1 (y-1) (by omega)]
  · simp only [h1, h2, if_true, if_false, e1, e2, hR h2 y hy9, hR h2 (y-1) (by omega)]
  · simp only [h1, h2, if_false, e1, e2]

theorem rerolls_congr (rng : Nat → Fin 4) (x y : Nat) (hx : x < BOARD_SIZE)
    (hy9 : y < BOARD_SIZE) :
    ∀ (n : Nat) (d₁ d₂ : Grid) (k : Nat), Agree3 x d₁ d₂ →
      (rerolls rng x y n (d₁, k)).2 = (rerolls rng x y n (d₂, k)).2 ∧
      Agree3 x (rerolls rng x y n (d₁, k)).1 (rerolls rng x y n (d₂, k)).1 := by
  intro n
  induction n with
  | zero => intro d₁ d₂ k h; exact ⟨rfl, h⟩
  | succ n ih =>
    intro d₁ d₂ k h
    have hrc := rollCheck_congr d₁ d₂ x y hy9 h
    by_cases hb : rollCheck d₂ x y = true
    · simp only [rerolls, hrc, hb, if_true]
      exact ih _ _ (k + 1) (h.updSame hx y _)
    · simp only [rerolls, hrc, hb, if_false]
      exact ih d₁ d₂ k h

theorem fillCells_congr (rng : Nat → Fin 4) (x : Nat) (hx : x < BOARD_SIZE) :
    ∀ (ys : List Nat) (d₁ d₂ : Grid) (k : Nat),
      (∀ y ∈ ys, y < BOARD_SIZE) → Agree3 x d₁ d₂ →
      (fillCells rng x ys (d₁, k)).2 = (fillCells rng x ys (d₂, k)).2 ∧
      Agree3 x (fillCells rng x ys (d₁, k)).1 (fillCells rng x ys (d₂, k)).1 := by
  intro ys
  induction ys with
  | nil => intro d₁ d₂ k _ h; exact ⟨rfl, h⟩
  | cons y ys ih =>
    intro d₁ d₂ k hys h
    have hy9 : y < BOARD_SIZE := hys y (List.mem_cons_self _ _)
    have hys' : ∀ y' ∈ ys, y' < BOARD_SIZE := fun y' h' => hys y' (List.mem_cons_of_mem _ h')
    have h' : Agree3 x (upd d₁ (index x y) (colorOf (rng k)))
        (upd d₂ (index x y) (colorOf (rng k))) := h.updSame hx y _
    simp only [fillCells]
    split
    · exact ih _ _ (k + 1) hys' h'
    · obtain ⟨hk, hag⟩ := rerolls_congr rng x y hx hy9 3
        (upd d₁ (index x y) (colorOf (rng k))) (upd d₂ (index x y) (colorOf (rng k))) (k + 1) h'
      have hr2 : rerolls rng x y 3 (upd d₂ (index x y) (colorOf (rng k)), k + 1)
          = ((rerolls rng x y 3 (upd d₂ (index x y) (colorOf (rng k)), k + 1)).1,
             (rerolls rng x y 3 (upd d₁ (index x y) (colorOf (rng k)), k + 1)).2) := by
        rw [hk]
      rw [hr2]
      exact ih (rerolls rng x y 3 (upd d₁ (index x y) (colorOf (rng k)), k + 1)).1
        (rerolls rng x y 3 (upd d₂ (index x y) (colorOf (rng k)), k + 1)).1
        (rerolls rng x y 3 (upd d₁ (index x y) (colorOf (rng k)), k + 1)).2 hys' hag

/-- C4 (amended): `fill_column x` never writes outside column `x`, and on two
grids that agree on columns `x-1`, `x` and `x+1` (with the same random draws)
it returns the same flag, the same RNG cursor, and the same colors on column
`x`. -/
theorem C4_fill_column_frame_and_local (rng : Nat → Fin 4) (x : Nat) (d₁ d₂ : Grid) (k : Nat)
    (hx : x < BOARD_SIZE)
    (hA : ∀ y, y < BOARD_SIZE → d₁ (index x y) = d₂ (index x y))
    (hL : 1 < x → ∀ y, y < BOARD_SIZE → d₁ (index (x-1) y) = d₂ (index (x-1) y))
    (hR : x < BOARD_SIZE - 1 → ∀ y, y < BOARD_SIZE → d₁ (index (x+1) y) = d₂ (index (x+1) y)) :
    (fill_column rng x (d₁, k)).1 = (fill_column rng x (d₂, k)).1 ∧
    (fill_column rng x (d₁, k)).2.2 = (fill_column rng x (d₂, k)).2.2 ∧
    (∀ y, y < BOARD_SIZE →
      (fill_column rng x (d₁, k)).2.1 (index x y)
        = (fill_column rng x (d₂, k)).2.1 (index x y)) ∧
    (∀ j, (∀ y, y < BOARD_SIZE → j ≠ index x y) → (fill_column rng x (d₁, k)).2.1 j = d₁ j) := by
  have hB : BOARD_SIZE = 10 := rfl
  have hscan : scanStep d₁ x ((List.range BOARD_SIZE).reverse) (BOARD_SIZE - 1) false
      = scanStep d₂ x ((List.range BOARD_SIZE).reverse) (BOARD_SIZE - 1) false :=
    scanStep_congr d₁ d₂ x _ _ _
      (fun y hy => hA y (by simpa [List.mem_reverse, List.mem_range] using hy))
  rw [fill_column, fill_column, ← hscan]
  cases hsc : scanStep d₁ x ((List.range BOARD_SIZE).reverse) (BOARD_SIZE - 1) false with
  | none =>
    simp only [hsc]
    exact ⟨by trivial, by trivial, fun y hy => hA y hy, fun j _ => by trivial⟩
  | some fe =>
    simp only [hsc]
    have hys : ∀ y ∈ List.range' fe (BOARD_SIZE - fe), y < BOARD_SIZE := by
      intro y hy
      rw [List.mem_range'_1] at hy
      omega
    obtain ⟨hk, hag⟩ := fillCells_congr rng x hx (List.range' fe (BOARD_SIZE - fe)) d₁ d₂ k
      hys ⟨hA, hL, hR⟩
    refine ⟨by trivial, hk, fun y hy => hag.1 y hy, ?_⟩
    intro j hj
    refine (fillCells_spec rng x (List.range' fe (BOARD_SIZE - fe)) d₁ k).1 j ?_
    intro y' hy'
    exact hj y' (hys y' hy')

/-- Witness for C4 (amended) at a concrete input. -/
theorem C4_witness :
    (0 : Nat) < BOARD_SIZE ∧
    ((fill_column rngBlue 0 (allRed, 0)).1 = (fill_column rngBlue 0 (allRed, 0)).1 ∧
    (fill_column rngBlue 0 (allRed, 0)).2.2 = (fill_column rngBlue 0 (allRed, 0)).2.2 ∧
    (∀ y, y < BOARD_SIZE →
      (fill_column rngBlue 0 (allRed, 0)).2.1 (index 0 y)
        = (fill_column rngBlue 0 (allRed, 0)).2.1 (index 0 y)) ∧
    (∀ j, (∀ y, y < BOARD_SIZE → j ≠ index 0 y) →
      (fill_column rngBlue 0 (allRed, 0)).2.1 j = allRed j)) :=
  ⟨by decide, C4_fill_column_frame_and_local rngBlue 0 allRed allRed 0 (by decide)
    (fun _ _ => rfl) (fun _ _ _ => rfl) (fun _ _ _ => rfl)⟩
